import Mathlib

set_option maxRecDepth 8000

namespace NSPanelEasy

/-! Shallow embedding of `src/components/nspanel_easy/text.cpp`.

Strings are modelled as `List Char`, one `Char` per byte of the C++
`std::string`; every byte value the code compares against is ASCII, so the
identification is exact and `List.length` is the byte length.  Byte
sequences fed to the UTF-8 decoder are modelled as `List Nat`: the bytes of
a NUL-terminated C string in order, up to and excluding the terminator
(so `bytes[i] != '\0'` in the C++ corresponds to `i < length`). -/

/-- The two-character line-break escape token (backslash then `r`) inserted
by `wrapText` (text.cpp line 115) and searched for at line 64. -/
def breakTok : List Char := ['\\', 'r']

/-- Marker returned for oversized input (text.cpp line 57). -/
def errorTooLong : List Char := "ERROR: Text too long".data

/-- Marker returned for zero wrap parameters (text.cpp line 61). -/
def errorInvalid : List Char := "ERROR: Invalid line length".data

/-- Index of the first non-space character at or after `i`: the
space-skipping loops of text.cpp lines 84-86 and 118-120. -/
def skipSpaces (s : List Char) (i : Nat) : Nat :=
  i + ((s.drop i).takeWhile (fun c => c == ' ')).length

/-- Backward search from index `e` toward `start` for a space
(text.cpp lines 98-101): decrement `e` while `start < e` and `s[e]` is not
a space.  Out-of-range reads never happen at the call site (`e < s.length`
there); `getD` supplies a default only to make the function total. -/
def wordEnd (s : List Char) (start : Nat) : Nat → Nat
  | 0 => 0
  | e + 1 =>
    if start < e + 1 ∧ s.getD (e + 1) ' ' ≠ ' ' then wordEnd s start e
    else e + 1

/-- End index of the line starting at `start` (text.cpp lines 92-108):
tentatively `start + maxLen`, clamped to the text length; otherwise moved
back to a word boundary when one exists strictly after `start`. -/
def findBreak (s : List Char) (maxLen start : Nat) : Nat :=
  if s.length ≤ start + maxLen then s.length
  else if start < wordEnd s start (start + maxLen) then
    wordEnd s start (start + maxLen)
  else start + maxLen

/-- The greedy wrapping loop of text.cpp lines 80-124: skip spaces, emit the
segment up to the break position, append the break token when more text
remains, and continue past any spaces at the break point.  `fuel` bounds the
number of iterations; `wrapText` supplies `s.length + 1`, which never runs
out because each iteration consumes at least one character when
`maxLen > 0`. -/
def wrapLoop (s : List Char) (maxLen : Nat) : Nat → Nat → List Char
  | 0, _ => []
  | fuel + 1, start0 =>
    let start := skipSpaces s start0
    if start < s.length then
      let e := findBreak s maxLen start
      let seg := (s.drop start).take (e - start)
      if e < s.length then
        seg ++ breakTok ++ wrapLoop s maxLen fuel (skipSpaces s e)
      else seg
    else []

/-- `wrapText` (text.cpp lines 52-127).  The parameters `L`
(`line_length_limit`) and `B` (`bytes_per_char`) are `uint8_t` in the C++;
for all values below 256 the `uint16_t` product and index arithmetic in the
source never overflow (indices stay below 2000), so plain `Nat` arithmetic
is exact on the whole C++ domain. -/
def wrapText (s : List Char) (L B : Nat) : List Char :=
  if 1000 < s.length then errorTooLong
  else if L = 0 ∨ B = 0 then errorInvalid
  else if breakTok <:+: s then s
  else if s.length ≤ L * B then s
  else wrapLoop s (L * B) (s.length + 1) 0

/-- Leftmost, non-overlapping split of a string on the two-character break
token, as a caller of `wrapText` would split the wrapped output into lines. -/
def splitOnBreak : List Char → List (List Char)
  | [] => [[]]
  | [c] => [[c]]
  | c1 :: c2 :: rest =>
    if c1 = '\\' ∧ c2 = 'r' then [] :: splitOnBreak rest
    else
      match splitOnBreak (c2 :: rest) with
      | l :: ls => (c1 :: l) :: ls
      | [] => [[c1]]

/-- `decode_utf8` (text.cpp lines 134-170), on the byte list of a C string.
The guard `bytes[k] != '\0'` of the source reads `k ≤ rest.length` here; a
missing continuation byte makes the branch condition fail exactly as in the
source, where the chain then falls through to the final `else`. -/
def decode_utf8 (bytes : List Nat) : Nat :=
  match bytes with
  | [] => 0
  | b0 :: rest =>
    if b0 &&& 0x80 = 0 then b0
    else if b0 &&& 0xE0 = 0xC0 ∧ 1 ≤ rest.length then
      let b1 := rest.getD 0 0
      if ¬ b1 &&& 0xC0 = 0x80 then 0
      else
        let cp := ((b0 &&& 0x1F) <<< 6) ||| (b1 &&& 0x3F)
        if cp < 0x80 then 0 else cp
    else if b0 &&& 0xF0 = 0xE0 ∧ 2 ≤ rest.length then
      let b1 := rest.getD 0 0
      let b2 := rest.getD 1 0
      if ¬ b1 &&& 0xC0 = 0x80 ∨ ¬ b2 &&& 0xC0 = 0x80 then 0
      else
        let cp := ((b0 &&& 0x0F) <<< 12) ||| ((b1 &&& 0x3F) <<< 6) ||| (b2 &&& 0x3F)
        if cp < 0x800 ∨ (0xD800 ≤ cp ∧ cp ≤ 0xDFFF) then 0 else cp
    else if b0 &&& 0xF8 = 0xF0 ∧ 3 ≤ rest.length then
      let b1 := rest.getD 0 0
      let b2 := rest.getD 1 0
      let b3 := rest.getD 2 0
      if ¬ b1 &&& 0xC0 = 0x80 ∨ ¬ b2 &&& 0xC0 = 0x80 ∨ ¬ b3 &&& 0xC0 = 0x80 then 0
      else ((b0 &&& 0x07) <<< 18) ||| ((b1 &&& 0x3F) <<< 12) |||
        ((b2 &&& 0x3F) <<< 6) ||| (b3 &&& 0x3F)
    else 0

/-- Character class scanned by `adjustDecimalSeparator` (text.cpp line 19):
digits, `.`, `-`, `,`. -/
def isNumChar (c : Char) : Bool := c.isDigit || c == '.' || c == '-' || c == ','

/-- Replace the first `.` of the list by `sep`; identity when no `.` occurs
(text.cpp lines 37-40: `find` then single-position assignment). -/
def replaceFirstDot : List Char → Char → List Char
  | [], _ => []
  | c :: t, sep => if c = '.' then sep :: t else c :: replaceFirstDot t sep

/-- Modelled behaviour of the validity check at text.cpp lines 32-35: does
`strtod` consume the whole candidate string?  The candidate only contains
characters from `{0-9, '.', '-', ','}`, so of the C `strtod` grammar only
the form "optional minus sign, digits with at most one interior dot, at
least one digit" can consume everything; exponents, hex forms, `inf`/`nan`,
leading whitespace and `+` involve characters outside the scanned class. -/
def strtodAll (l : List Char) : Bool :=
  let body := if l.head? = some '-' then l.tail else l
  let r1 := body.dropWhile Char.isDigit
  match r1 with
  | [] => !(body.takeWhile Char.isDigit).isEmpty
  | c :: t =>
    c == '.' && (t.dropWhile Char.isDigit).isEmpty &&
      (!(body.takeWhile Char.isDigit).isEmpty || !t.isEmpty)

/-- `adjustDecimalSeparator` (text.cpp lines 10-50): scan the numeric
prefix, validate it, replace its first `.` by `sep`, and re-append the
untouched suffix. -/
def adjustDecimalSeparator (input : List Char) (sep : Char) : List Char :=
  if sep = '.' then input
  else
    let numericPart := input.takeWhile isNumChar
    if numericPart.isEmpty then input
    else if strtodAll numericPart then
      replaceFirstDot numericPart sep ++ input.dropWhile isNumChar
    else input


lemma tok_in_cons {c : Char} {t : List Char} (h : breakTok <:+: t) :
    breakTok <:+: c :: t := by
  obtain ⟨u, v, huv⟩ := h
  exact ⟨c :: u, v, by rw [← huv]; simp⟩

lemma splitOnBreak_ne_nil (s : List Char) : splitOnBreak s ≠ [] := by
  match s with
  | [] => simp [splitOnBreak]
  | [c] => simp [splitOnBreak]
  | c1 :: c2 :: rest =>
    rw [splitOnBreak]
    split
    · simp
    · split <;> simp

lemma splitOnBreak_no_tok (s : List Char) (h : ¬ breakTok <:+: s) :
    splitOnBreak s = [s] := by
  induction s using splitOnBreak.induct with
  | case1 => rfl
  | case2 c => rfl
  | case3 c1 c2 rest hif ih =>
    exact absurd ⟨[], rest, by simp [breakTok, hif.1, hif.2]⟩ h
  | case4 c1 c2 rest hif l ls heq ih =>
    rw [splitOnBreak, if_neg hif, ih (fun hin => h (tok_in_cons hin))]
  | case5 c1 c2 rest hif heq ih =>
    exact absurd heq (splitOnBreak_ne_nil _)


lemma splitOnBreak_append (seg rest : List Char) (h : ¬ breakTok <:+: seg) :
    splitOnBreak (seg ++ breakTok ++ rest) = seg :: splitOnBreak rest := by
  induction seg with
  | nil =>
    show splitOnBreak ('\\' :: 'r' :: rest) = [] :: splitOnBreak rest
    rw [splitOnBreak, if_pos ⟨rfl, rfl⟩]
  | cons c seg' ih =>
    match seg' with
    | [] =>
      show splitOnBreak (c :: '\\' :: 'r' :: rest) = [c] :: splitOnBreak rest
      have hc : ¬ (c = '\\' ∧ '\\' = 'r') := by simp
      rw [splitOnBreak, if_neg hc,
        show splitOnBreak ('\\' :: 'r' :: rest) = [] :: splitOnBreak rest from by
          rw [splitOnBreak, if_pos ⟨rfl, rfl⟩]]
    | c2 :: seg2 =>
      have hc : ¬ (c = '\\' ∧ c2 = 'r') := by
        rintro ⟨rfl, rfl⟩
        exact h ⟨[], seg2, rfl⟩
      have ih' := ih (fun hin => h (tok_in_cons hin))
      show splitOnBreak (c :: ((c2 :: seg2) ++ breakTok ++ rest)) = _
      rw [show (c2 :: seg2) ++ breakTok ++ rest = c2 :: (seg2 ++ breakTok ++ rest) from by simp,
        splitOnBreak, if_neg hc]
      rw [show c2 :: (seg2 ++ breakTok ++ rest) = (c2 :: seg2) ++ breakTok ++ rest from by simp,
        ih']


lemma skipSpaces_le (s : List Char) (i : Nat) : i ≤ skipSpaces s i :=
  Nat.le_add_right _ _

lemma dropWhile_eq_drop (p : Char → Bool) (l : List Char) :
    l.dropWhile p = l.drop (l.takeWhile p).length := by
  induction l with
  | nil => rfl
  | cons c t ih =>
    by_cases hp : p c
    · simp [List.takeWhile_cons_of_pos hp, List.dropWhile_cons_of_pos hp, ih]
    · simp [List.takeWhile_cons_of_neg hp, List.dropWhile_cons_of_neg hp]

lemma drop_skipSpaces (s : List Char) (i : Nat) :
    s.drop (skipSpaces s i) = (s.drop i).dropWhile (fun c => c == ' ') := by
  rw [skipSpaces, dropWhile_eq_drop, List.drop_drop]

lemma skipSpaces_head (s : List Char) (i : Nat) (h : skipSpaces s i < s.length) :
    ∃ c t, s.drop (skipSpaces s i) = c :: t ∧ c ≠ ' ' := by
  have hne : s.drop (skipSpaces s i) ≠ [] := by
    intro hnil
    rw [List.drop_eq_nil_iff] at hnil
    omega
  obtain ⟨c, t, hct⟩ := List.exists_cons_of_ne_nil hne
  refine ⟨c, t, hct, ?_⟩
  have hw := List.head?_dropWhile_not (fun c => c == ' ') (s.drop i)
  rw [← drop_skipSpaces, hct] at hw
  simpa using hw

lemma wordEnd_le (s : List Char) (start : Nat) : ∀ e, wordEnd s start e ≤ e := by
  intro e
  induction e with
  | zero => simp [wordEnd]
  | succ e ih =>
    rw [wordEnd]
    split
    · omega
    · omega

lemma findBreak_lt (s : List Char) (maxLen start : Nat) (hm : 0 < maxLen)
    (hst : start < s.length) : start < findBreak s maxLen start := by
  rw [findBreak]
  split
  · exact hst
  · split
    · assumption
    · omega

lemma findBreak_sub_le (s : List Char) (maxLen start : Nat) :
    findBreak s maxLen start - start ≤ maxLen := by
  rw [findBreak]
  split
  · omega
  · split
    · have := wordEnd_le s start (start + maxLen)
      omega
    · omega


lemma wrapLoop_lines (s : List Char) (maxLen : Nat) (hm : 0 < maxLen)
    (htok : ¬ breakTok <:+: s) :
    ∀ (fuel start : Nat), s.length ≤ start + fuel →
      ∀ l ∈ splitOnBreak (wrapLoop s maxLen fuel start),
        l.length ≤ maxLen ∧ l.head? ≠ some ' ' := by
  intro fuel
  induction fuel with
  | zero =>
    intro start hs l hl
    simp only [wrapLoop, splitOnBreak, List.mem_singleton] at hl
    subst hl
    exact ⟨Nat.zero_le _, by simp⟩
  | succ fuel ih =>
    intro start hs l hl
    simp only [wrapLoop] at hl
    by_cases h1 : skipSpaces s start < s.length
    · rw [if_pos h1] at hl
      have hstart : start ≤ skipSpaces s start := skipSpaces_le s start
      have hlt : skipSpaces s start < findBreak s maxLen (skipSpaces s start) :=
        findBreak_lt s maxLen _ hm h1
      have hsub : findBreak s maxLen (skipSpaces s start) - skipSpaces s start ≤ maxLen :=
        findBreak_sub_le s maxLen _
      obtain ⟨c, t, hdrop, hc⟩ := skipSpaces_head s start h1
      have hseg_shape :
          (s.drop (skipSpaces s start)).take
              (findBreak s maxLen (skipSpaces s start) - skipSpaces s start) =
            c :: t.take (findBreak s maxLen (skipSpaces s start) - skipSpaces s start - 1) := by
        rw [hdrop]
        obtain ⟨k, hk⟩ : ∃ k,
            findBreak s maxLen (skipSpaces s start) - skipSpaces s start = k + 1 :=
          ⟨findBreak s maxLen (skipSpaces s start) - skipSpaces s start - 1, by omega⟩
        rw [hk]
        simp
      have hseg_len :
          ((s.drop (skipSpaces s start)).take
            (findBreak s maxLen (skipSpaces s start) - skipSpaces s start)).length ≤ maxLen := by
        rw [List.length_take]
        omega
      have hseg_head :
          ((s.drop (skipSpaces s start)).take
            (findBreak s maxLen (skipSpaces s start) - skipSpaces s start)).head? ≠ some ' ' := by
        rw [hseg_shape]
        simpa using hc
      have hseg_notok :
          ¬ breakTok <:+:
            (s.drop (skipSpaces s start)).take
              (findBreak s maxLen (skipSpaces s start) - skipSpaces s start) := by
        intro hin
        apply htok
        obtain ⟨u, v, huv⟩ := hin
        refine ⟨s.take (skipSpaces s start) ++ u,
          v ++ (s.drop (skipSpaces s start)).drop
            (findBreak s maxLen (skipSpaces s start) - skipSpaces s start), ?_⟩
        have hdecomp :
            s.take (skipSpaces s start) ++
              ((s.drop (skipSpaces s start)).take
                  (findBreak s maxLen (skipSpaces s start) - skipSpaces s start) ++
                (s.drop (skipSpaces s start)).drop
                  (findBreak s maxLen (skipSpaces s start) - skipSpaces s start)) = s := by
          rw [List.take_append_drop, List.take_append_drop]
        calc (s.take (skipSpaces s start) ++ u) ++ breakTok ++
              (v ++ (s.drop (skipSpaces s start)).drop
                (findBreak s maxLen (skipSpaces s start) - skipSpaces s start))
            = s.take (skipSpaces s start) ++
                ((u ++ breakTok ++ v) ++
                  (s.drop (skipSpaces s start)).drop
                    (findBreak s maxLen (skipSpaces s start) - skipSpaces s start)) := by
              simp
          _ = s := by rw [huv]; exact hdecomp
      by_cases h2 : findBreak s maxLen (skipSpaces s start) < s.length
      · rw [if_pos h2, splitOnBreak_append _ _ hseg_notok] at hl
        rcases List.mem_cons.mp hl with rfl | hl2
        · exact ⟨hseg_len, hseg_head⟩
        · refine ih (skipSpaces s (findBreak s maxLen (skipSpaces s start))) ?_ l hl2
          have h3 := skipSpaces_le s (findBreak s maxLen (skipSpaces s start))
          omega
      · rw [if_neg h2, splitOnBreak_no_tok _ hseg_notok, List.mem_singleton] at hl
        subst hl
        exact ⟨hseg_len, hseg_head⟩
    · rw [if_neg h1] at hl
      simp only [splitOnBreak, List.mem_singleton] at hl
      subst hl
      exact ⟨Nat.zero_le _, by simp⟩


lemma wrapText_of_long {s : List Char} (L B : Nat) (h : 1000 < s.length) :
    wrapText s L B = errorTooLong := by
  unfold wrapText
  rw [if_pos h]

lemma wrapText_of_zero {s : List Char} {L B : Nat} (h1 : s.length ≤ 1000)
    (h2 : L = 0 ∨ B = 0) : wrapText s L B = errorInvalid := by
  unfold wrapText
  rw [if_neg (by omega), if_pos h2]

lemma wrapText_of_tok {s : List Char} {L B : Nat} (h1 : s.length ≤ 1000)
    (hL : 0 < L) (hB : 0 < B) (h : breakTok <:+: s) : wrapText s L B = s := by
  unfold wrapText
  rw [if_neg (by omega), if_neg (by omega), if_pos h]

lemma wrapText_of_short {s : List Char} {L B : Nat} (h1 : s.length ≤ 1000)
    (hL : 0 < L) (hB : 0 < B) (htok : ¬ breakTok <:+: s)
    (hshort : s.length ≤ L * B) : wrapText s L B = s := by
  unfold wrapText
  rw [if_neg (by omega), if_neg (by omega), if_neg htok, if_pos hshort]

lemma wrapText_wrap_case {s : List Char} {L B : Nat} (h1 : s.length ≤ 1000)
    (hL : 0 < L) (hB : 0 < B) (htok : ¬ breakTok <:+: s)
    (hlong : L * B < s.length) :
    wrapText s L B = wrapLoop s (L * B) (s.length + 1) 0 := by
  unfold wrapText
  rw [if_neg (by omega), if_neg (by omega), if_neg htok, if_neg (by omega)]

/-- C1: for input of at most 1000 bytes without the break token and positive
wrap parameters, every line of the wrapped output, split on the break token,
has byte length at most `L * B` — except possibly a line with no space in it
(a single word) that exceeds the bound. -/
theorem wrap_length_bound (s : List Char) (L B : Nat) (h1000 : s.length ≤ 1000)
    (htok : ¬ breakTok <:+: s) (hL : 0 < L) (hB : 0 < B) :
    ∀ l ∈ splitOnBreak (wrapText s L B), l.length ≤ L * B ∨ ' ' ∉ l := by
  intro l hl
  by_cases hshort : s.length ≤ L * B
  · rw [wrapText_of_short h1000 hL hB htok hshort,
      splitOnBreak_no_tok _ htok, List.mem_singleton] at hl
    subst hl
    exact Or.inl (le_trans (le_refl _) hshort)
  · rw [wrapText_wrap_case h1000 hL hB htok (by omega)] at hl
    exact Or.inl (wrapLoop_lines s (L * B) (Nat.mul_pos hL hB) htok
      (s.length + 1) 0 (by omega) l hl).1

/-- Witness for C1 at a concrete input. -/
theorem wrap_length_bound_w :
    ("hello".data).length ≤ 5 * 1 ∨ ' ' ∉ "hello".data :=
  wrap_length_bound "hello world".data 5 1 (by decide) (by decide)
    (by decide) (by decide) "hello".data (by decide)


/-- C2 counterexample: a text of at most 1000 bytes with positive parameters
whose output (here: the text returned unchanged because it fits on one line)
has a line beginning with a space, refuting the claim as stated over all
inputs. -/
theorem wrap_no_leading_space_cex :
    (" a".data).length ≤ 1000 ∧ 0 < 5 ∧ 0 < 1 ∧
      ∃ l ∈ splitOnBreak (wrapText " a".data 5 1), l.head? = some ' ' := by
  decide

/-- C2 (amended): when the input contains no break token and actually gets
wrapped (its length exceeds `L * B`), no output line begins with a space. -/
theorem wrap_no_leading_space (s : List Char) (L B : Nat)
    (h1000 : s.length ≤ 1000) (htok : ¬ breakTok <:+: s)
    (hL : 0 < L) (hB : 0 < B) (hlong : L * B < s.length) :
    ∀ l ∈ splitOnBreak (wrapText s L B), l.head? ≠ some ' ' := by
  intro l hl
  rw [wrapText_wrap_case h1000 hL hB htok hlong] at hl
  exact (wrapLoop_lines s (L * B) (Nat.mul_pos hL hB) htok
    (s.length + 1) 0 (by omega) l hl).2

/-- Witness for the amended C2 at a concrete input. -/
theorem wrap_no_leading_space_w : ("world".data).head? ≠ some ' ' :=
  wrap_no_leading_space "hello  world".data 5 1 (by decide) (by decide)
    (by decide) (by decide) (by decide) "world".data (by decide)

/-- C3 counterexample: a 1001-byte text containing the break token is not
returned unchanged — the overflow guard fires first. -/
theorem wrap_idem_cex :
    breakTok <:+: List.replicate 999 'a' ++ breakTok ∧
      wrapText (List.replicate 999 'a' ++ breakTok) 1 1 ≠
        List.replicate 999 'a' ++ breakTok := by
  constructor
  · exact ⟨List.replicate 999 'a', [], by simp⟩
  · rw [wrapText_of_long 1 1 (by simp [breakTok])]
    intro hc
    have hlen := congrArg List.length hc
    have h20 : errorTooLong.length = 20 := by decide
    simp [h20, breakTok] at hlen
  
/-- C3 (amended): a text of at most 1000 bytes that contains the break token
is returned unchanged by `wrapText` for positive parameters. -/
theorem wrap_idem_on_wrapped (s : List Char) (L B : Nat)
    (h1000 : s.length ≤ 1000) (hL : 0 < L) (hB : 0 < B)
    (htok : breakTok <:+: s) : wrapText s L B = s :=
  wrapText_of_tok h1000 hL hB htok

/-- Witness for the amended C3 at a concrete input. -/
theorem wrap_idem_on_wrapped_w : wrapText "ab\\rcd".data 1 1 = "ab\\rcd".data :=
  wrap_idem_on_wrapped "ab\\rcd".data 1 1 (by decide) (by decide) (by decide)
    (by decide)

/-- C4: any text longer than 1000 bytes yields the overflow-error marker,
whatever the parameters are — the oversized-input guard is checked first. -/
theorem wrap_overflow_guard (s : List Char) (L B : Nat)
    (h : 1000 < s.length) : wrapText s L B = errorTooLong :=
  wrapText_of_long L B h

/-- Witness for C4: a 1001-byte input with both parameters zero. -/
theorem wrap_overflow_guard_w :
    wrapText (List.replicate 1001 'a') 0 0 = errorTooLong :=
  wrap_overflow_guard (List.replicate 1001 'a') 0 0 (by simp)

/-- C5: with a text of at most 1000 bytes, a zero `line_length_limit` or a
zero `bytes_per_char` yields the invalid-parameter marker. -/
theorem wrap_invalid_params (s : List Char) (L B : Nat)
    (h1 : s.length ≤ 1000) (h2 : L = 0 ∨ B = 0) :
    wrapText s L B = errorInvalid :=
  wrapText_of_zero h1 h2

/-- Witness for C5: the two instances named by the claim. -/
theorem wrap_invalid_params_w :
    wrapText "abc".data 0 5 = errorInvalid ∧
      wrapText "abc".data 5 0 = errorInvalid :=
  ⟨wrap_invalid_params "abc".data 0 5 (by decide) (Or.inl rfl),
    wrap_invalid_params "abc".data 5 0 (by decide) (Or.inr rfl)⟩

/-- C10: a valid input (at most 1000 bytes, no break token, longer than
`L * B`) whose wrapped output ends with the break token, so that splitting
yields a trailing empty line: the spaces after the chosen break point run to
the end of the text and the token is appended before they are consumed. -/
theorem wrap_trailing_empty_line :
    ("abc   ".data).length ≤ 1000 ∧ ¬ breakTok <:+: "abc   ".data ∧
      3 * 1 < ("abc   ".data).length ∧
      wrapText "abc   ".data 3 1 = "abc".data ++ breakTok ∧
      splitOnBreak (wrapText "abc   ".data 3 1) = ["abc".data, []] := by
  decide


lemma lead2_facts : ∀ x < 32, (0xC0 + x) &&& 0x80 ≠ 0 ∧
    (0xC0 + x) &&& 0xE0 = 0xC0 ∧ (0xC0 + x) &&& 0x1F = x := by decide

lemma lead3_facts : ∀ x < 16, (0xE0 + x) &&& 0x80 ≠ 0 ∧
    ¬ (0xE0 + x) &&& 0xE0 = 0xC0 ∧ (0xE0 + x) &&& 0xF0 = 0xE0 ∧
    (0xE0 + x) &&& 0x0F = x := by decide

lemma lead4_facts : ∀ x < 8, (0xF0 + x) &&& 0x80 ≠ 0 ∧
    ¬ (0xF0 + x) &&& 0xE0 = 0xC0 ∧ ¬ (0xF0 + x) &&& 0xF0 = 0xE0 ∧
    (0xF0 + x) &&& 0xF8 = 0xF0 ∧ (0xF0 + x) &&& 0x07 = x := by decide

lemma cont_facts : ∀ y < 64, (0x80 + y) &&& 0xC0 = 0x80 ∧
    (0x80 + y) &&& 0x3F = y := by decide

lemma lor_low (a b n : Nat) (hb : b < 2 ^ n) : (a <<< n) ||| b = 2 ^ n * a + b := by
  rw [Nat.shiftLeft_eq, Nat.mul_comm]
  exact (Nat.mul_add_lt_is_or hb a).symm

lemma decode2_val {x y : Nat} (_hx : x < 32) (hy : y < 64) :
    (x <<< 6) ||| y = 64 * x + y := by
  have := lor_low x y 6 (by omega)
  omega

lemma decode3_val {x y z : Nat} (_hx : x < 16) (hy : y < 64) (hz : z < 64) :
    (x <<< 12) ||| (y <<< 6) ||| z = 4096 * x + 64 * y + z := by
  have h1 : (x <<< 12) ||| (y <<< 6) = 4096 * x + 64 * y := by
    have hy6 : y <<< 6 = 64 * y := by rw [Nat.shiftLeft_eq]; omega
    rw [hy6, lor_low x (64 * y) 12 (by omega)]
    omega
  rw [h1]
  have h2 : 4096 * x + 64 * y = 2 ^ 6 * (64 * x + y) := by ring
  rw [h2, ← Nat.mul_add_lt_is_or (by omega : z < 2 ^ 6) (64 * x + y)]

lemma decode4_val {x y z w : Nat} (_hx : x < 8) (hy : y < 64) (hz : z < 64)
    (hw : w < 64) :
    (x <<< 18) ||| (y <<< 12) ||| (z <<< 6) ||| w =
      262144 * x + 4096 * y + 64 * z + w := by
  have h1 : (x <<< 18) ||| (y <<< 12) = 262144 * x + 4096 * y := by
    have hy12 : y <<< 12 = 4096 * y := by rw [Nat.shiftLeft_eq]; omega
    rw [hy12, lor_low x (4096 * y) 18 (by omega)]
    omega
  have h2 : 262144 * x + 4096 * y = 2 ^ 12 * (64 * x + y) := by ring
  have hz6 : z <<< 6 = 64 * z := by rw [Nat.shiftLeft_eq]; omega
  have h3 : (x <<< 18) ||| (y <<< 12) ||| (z <<< 6) =
      262144 * x + 4096 * y + 64 * z := by
    rw [h1, hz6, h2, ← Nat.mul_add_lt_is_or (by omega : 64 * z < 2 ^ 12) (64 * x + y)]
  rw [h3]
  have h4 : 262144 * x + 4096 * y + 64 * z = 2 ^ 6 * (4096 * x + 64 * y + z) := by
    ring
  rw [h4, ← Nat.mul_add_lt_is_or (by omega : w < 2 ^ 6) (4096 * x + 64 * y + z)]

lemma decode2_eq {x y : Nat} (hx : x < 32) (hy : y < 64) (rest : List Nat) :
    decode_utf8 ((0xC0 + x) :: (0x80 + y) :: rest) =
      if 64 * x + y < 0x80 then 0 else 64 * x + y := by
  obtain ⟨hx1, hx2, hx3⟩ := lead2_facts x hx
  obtain ⟨hy1, hy2⟩ := cont_facts y hy
  simp only [decode_utf8, List.getD_cons_zero, List.length_cons]
  rw [if_neg hx1, if_pos ⟨hx2, by omega⟩, if_neg (by rw [hy1]; simp),
    hx3, hy2, decode2_val hx hy]


lemma decode3_eq {x y z : Nat} (hx : x < 16) (hy : y < 64) (hz : z < 64)
    (rest : List Nat) :
    decode_utf8 ((0xE0 + x) :: (0x80 + y) :: (0x80 + z) :: rest) =
      if 4096 * x + 64 * y + z < 0x800 ∨
          (0xD800 ≤ 4096 * x + 64 * y + z ∧ 4096 * x + 64 * y + z ≤ 0xDFFF) then 0
      else 4096 * x + 64 * y + z := by
  obtain ⟨hx1, hx2, hx3, hx4⟩ := lead3_facts x hx
  obtain ⟨hy1, hy2⟩ := cont_facts y hy
  obtain ⟨hz1, hz2⟩ := cont_facts z hz
  simp only [decode_utf8, List.getD_cons_zero, List.getD_cons_succ,
    List.length_cons]
  rw [if_neg hx1, if_neg (by simp [hx2]), if_pos ⟨hx3, by omega⟩,
    if_neg (by rw [hy1, hz1]; simp), hx4, hy2, hz2, decode3_val hx hy hz]

lemma decode4_eq {x y z w : Nat} (hx : x < 8) (hy : y < 64) (hz : z < 64)
    (hw : w < 64) (rest : List Nat) :
    decode_utf8 ((0xF0 + x) :: (0x80 + y) :: (0x80 + z) :: (0x80 + w) :: rest) =
      262144 * x + 4096 * y + 64 * z + w := by
  obtain ⟨hx1, hx2, hx3, hx4, hx5⟩ := lead4_facts x hx
  obtain ⟨hy1, hy2⟩ := cont_facts y hy
  obtain ⟨hz1, hz2⟩ := cont_facts z hz
  obtain ⟨hw1, hw2⟩ := cont_facts w hw
  simp only [decode_utf8, List.getD_cons_zero, List.getD_cons_succ,
    List.length_cons]
  rw [if_neg hx1, if_neg (by simp [hx2]), if_neg (by simp [hx3]),
    if_pos ⟨hx4, by omega⟩, if_neg (by rw [hy1, hz1, hw1]; simp),
    hx5, hy2, hz2, hw2, decode4_val hx hy hz hw]

lemma land_extract {b m k r : Nat} (hmk : m &&& k = k) (h : b &&& m = r) :
    b &&& k = r &&& k := by
  rw [← h, Nat.land_assoc, hmk]

lemma decode2_badcont {b0 b1 : Nat} (h0 : b0 &&& 0xE0 = 0xC0)
    (h1 : ¬ b1 &&& 0xC0 = 0x80) (rest : List Nat) :
    decode_utf8 (b0 :: b1 :: rest) = 0 := by
  have hbit : b0 &&& 0x80 = 0x80 := land_extract (by decide) h0
  simp only [decode_utf8, List.getD_cons_zero, List.length_cons]
  rw [if_neg (by omega), if_pos ⟨h0, by omega⟩, if_pos h1]

lemma decode3_badcont {b0 b1 b2 : Nat} (h0 : b0 &&& 0xF0 = 0xE0)
    (h12 : ¬ b1 &&& 0xC0 = 0x80 ∨ ¬ b2 &&& 0xC0 = 0x80) (rest : List Nat) :
    decode_utf8 (b0 :: b1 :: b2 :: rest) = 0 := by
  have hbit : b0 &&& 0x80 = 0x80 := land_extract (by decide) h0
  have hnot2 : b0 &&& 0xE0 = 0xE0 := land_extract (by decide) h0
  simp only [decode_utf8, List.getD_cons_zero, List.getD_cons_succ,
    List.length_cons]
  rw [if_neg (by omega), if_neg (by omega), if_pos ⟨h0, by omega⟩, if_pos h12]

lemma decode4_badcont {b0 b1 b2 b3 : Nat} (h0 : b0 &&& 0xF8 = 0xF0)
    (h123 : ¬ b1 &&& 0xC0 = 0x80 ∨ ¬ b2 &&& 0xC0 = 0x80 ∨ ¬ b3 &&& 0xC0 = 0x80)
    (rest : List Nat) :
    decode_utf8 (b0 :: b1 :: b2 :: b3 :: rest) = 0 := by
  have hbit : b0 &&& 0x80 = 0x80 := land_extract (by decide) h0
  have hnot2 : b0 &&& 0xE0 = 0xE0 := land_extract (by decide) h0
  have hnot3 : b0 &&& 0xF0 = 0xF0 := land_extract (by decide) h0
  simp only [decode_utf8, List.getD_cons_zero, List.getD_cons_succ,
    List.length_cons]
  rw [if_neg (by omega), if_neg (by omega), if_neg (by omega),
    if_pos ⟨h0, by omega⟩, if_pos h123]


/-- C6: decoder validity — ASCII and 2-byte decoding, empty input, overlong
2-byte and 3-byte rejection, surrogate rejection, and rejection of any
multi-byte sequence with a malformed continuation byte. -/
theorem decode_utf8_validity :
    decode_utf8 [0x41] = 0x41 ∧
    decode_utf8 [0xC3, 0xA9] = 0xE9 ∧
    decode_utf8 [] = 0 ∧
    (∀ x < 32, ∀ y < 64, 64 * x + y < 0x80 →
      decode_utf8 [0xC0 + x, 0x80 + y] = 0) ∧
    (∀ x < 16, ∀ y < 64, ∀ z < 64, 4096 * x + 64 * y + z < 0x800 →
      decode_utf8 [0xE0 + x, 0x80 + y, 0x80 + z] = 0) ∧
    (∀ x < 16, ∀ y < 64, ∀ z < 64,
      0xD800 ≤ 4096 * x + 64 * y + z → 4096 * x + 64 * y + z ≤ 0xDFFF →
      decode_utf8 [0xE0 + x, 0x80 + y, 0x80 + z] = 0) ∧
    (∀ (b0 b1 : Nat) (rest : List Nat), b0 &&& 0xE0 = 0xC0 →
      ¬ b1 &&& 0xC0 = 0x80 → decode_utf8 (b0 :: b1 :: rest) = 0) ∧
    (∀ (b0 b1 b2 : Nat) (rest : List Nat), b0 &&& 0xF0 = 0xE0 →
      (¬ b1 &&& 0xC0 = 0x80 ∨ ¬ b2 &&& 0xC0 = 0x80) →
      decode_utf8 (b0 :: b1 :: b2 :: rest) = 0) ∧
    (∀ (b0 b1 b2 b3 : Nat) (rest : List Nat), b0 &&& 0xF8 = 0xF0 →
      (¬ b1 &&& 0xC0 = 0x80 ∨ ¬ b2 &&& 0xC0 = 0x80 ∨ ¬ b3 &&& 0xC0 = 0x80) →
      decode_utf8 (b0 :: b1 :: b2 :: b3 :: rest) = 0) := by
  refine ⟨by decide, by decide, by decide, ?_, ?_, ?_, ?_, ?_, ?_⟩
  · intro x hx y hy hlt
    rw [decode2_eq hx hy [], if_pos hlt]
  · intro x hx y hy z hz hlt
    rw [decode3_eq hx hy hz [], if_pos (Or.inl hlt)]
  · intro x hx y hy z hz hge hle
    rw [decode3_eq hx hy hz [], if_pos (Or.inr ⟨hge, hle⟩)]
  · intro b0 b1 rest h0 h1
    exact decode2_badcont h0 h1 rest
  · intro b0 b1 b2 rest h0 h12
    exact decode3_badcont h0 h12 rest
  · intro b0 b1 b2 b3 rest h0 h123
    exact decode4_badcont h0 h123 rest

/-- Witness for C6: each quantified clause applied at a concrete sequence. -/
theorem decode_utf8_validity_w :
    decode_utf8 [0xC0, 0x80] = 0 ∧ decode_utf8 [0xE0, 0x81, 0x80] = 0 ∧
    decode_utf8 [0xED, 0xA0, 0x80] = 0 ∧ decode_utf8 [0xC3, 0x28] = 0 ∧
    decode_utf8 [0xE1, 0x28, 0x80] = 0 ∧ decode_utf8 [0xF1, 0x80, 0x80, 0x28] = 0 :=
  ⟨decode_utf8_validity.2.2.2.1 0 (by decide) 0 (by decide) (by decide),
    decode_utf8_validity.2.2.2.2.1 0 (by decide) 1 (by decide) 0 (by decide)
      (by decide),
    decode_utf8_validity.2.2.2.2.2.1 13 (by decide) 32 (by decide) 0 (by decide)
      (by decide) (by decide),
    decode_utf8_validity.2.2.2.2.2.2.1 0xC3 0x28 [] (by decide) (by decide),
    decode_utf8_validity.2.2.2.2.2.2.2.1 0xE1 0x28 0x80 [] (by decide)
      (Or.inl (by decide)),
    decode_utf8_validity.2.2.2.2.2.2.2.2 0xF1 0x80 0x80 0x28 [] (by decide)
      (Or.inr (Or.inr (by decide)))⟩

/-- C7: every well-formed 4-byte sequence decodes to its arithmetic value
with no upper-bound check, and the concrete sequence F4 90 80 80 yields
0x110000, which exceeds 0x10FFFF and is not the 0 sentinel. -/
theorem decode_utf8_no_upper_bound :
    (∀ x < 8, ∀ y < 64, ∀ z < 64, ∀ w < 64,
      decode_utf8 [0xF0 + x, 0x80 + y, 0x80 + z, 0x80 + w] =
        262144 * x + 4096 * y + 64 * z + w) ∧
    decode_utf8 [0xF4, 0x90, 0x80, 0x80] = 0x110000 ∧
    0x10FFFF < decode_utf8 [0xF4, 0x90, 0x80, 0x80] ∧
    decode_utf8 [0xF4, 0x90, 0x80, 0x80] ≠ 0 := by
  refine ⟨?_, by decide, by decide, by decide⟩
  intro x hx y hy z hz w hw
  exact decode4_eq hx hy hz hw []

/-- Witness for C7: the quantified clause applied at F4 90 80 80. -/
theorem decode_utf8_no_upper_bound_w :
    decode_utf8 [0xF4, 0x90, 0x80, 0x80] = 1114112 :=
  decode_utf8_no_upper_bound.1 4 (by decide) 16 (by decide) 0 (by decide) 0
    (by decide)


lemma replaceFirstDot_no_dot {l : List Char} (sep : Char) (h : '.' ∉ l) :
    replaceFirstDot l sep = l := by
  induction l with
  | nil => rfl
  | cons c t ih =>
    simp only [List.mem_cons, not_or] at h
    rw [replaceFirstDot, if_neg (fun hc => h.1 hc.symm), ih h.2]

lemma replaceFirstDot_dot (pre post : List Char) (sep : Char) (h : '.' ∉ pre) :
    replaceFirstDot (pre ++ '.' :: post) sep = pre ++ sep :: post := by
  induction pre with
  | nil => simp [replaceFirstDot]
  | cons c t ih =>
    simp only [List.mem_cons, not_or] at h
    rw [List.cons_append, replaceFirstDot, if_neg (fun hc => h.1 hc.symm),
      ih h.2, List.cons_append]

lemma dropWhile_takeWhile_nil (p : Char → Bool) (l : List Char) :
    (l.dropWhile p).takeWhile p = [] := by
  cases hc : l.dropWhile p with
  | nil => rfl
  | cons c t =>
    have hw := List.head?_dropWhile_not p l
    rw [hc] at hw
    simp only [List.head?_cons] at hw
    simp [List.takeWhile_cons, hw]

lemma dropWhile_dropWhile_self (p : Char → Bool) (l : List Char) :
    (l.dropWhile p).dropWhile p = l.dropWhile p := by
  cases hc : l.dropWhile p with
  | nil => rfl
  | cons c t =>
    have hw := List.head?_dropWhile_not p l
    rw [hc] at hw
    simp only [List.head?_cons] at hw
    simp [List.dropWhile_cons, hw]

lemma strtod_body_structure {body : List Char}
    (h : (match body.dropWhile Char.isDigit with
          | [] => !(body.takeWhile Char.isDigit).isEmpty
          | c :: t => c == '.' && (t.dropWhile Char.isDigit).isEmpty &&
              (!(body.takeWhile Char.isDigit).isEmpty || !t.isEmpty)) = true)
    (hdot : '.' ∈ body) :
    ∃ d1 d2, (∀ c ∈ d1, c.isDigit = true) ∧ (∀ c ∈ d2, c.isDigit = true) ∧
      body = d1 ++ '.' :: d2 := by
  cases hr : body.dropWhile Char.isDigit with
  | nil =>
    exfalso
    have hall := List.dropWhile_eq_nil_iff.mp hr
    exact absurd (hall '.' hdot) (by decide)
  | cons c t =>
    rw [hr] at h
    simp only [Bool.and_eq_true, beq_iff_eq, List.isEmpty_eq_true] at h
    obtain ⟨⟨hc, ht⟩, _⟩ := h
    refine ⟨body.takeWhile Char.isDigit, t, ?_, List.dropWhile_eq_nil_iff.mp ht, ?_⟩
    · intro a ha
      exact List.mem_takeWhile_imp ha
    · conv_lhs => rw [← List.takeWhile_append_dropWhile Char.isDigit body]
      rw [hr, hc]

lemma strtodAll_dot {np : List Char} (h : strtodAll np = true)
    (hdot : '.' ∈ np) :
    ∃ sgn d1 d2, (sgn = [] ∨ sgn = ['-']) ∧ (∀ c ∈ d1, c.isDigit = true) ∧
      (∀ c ∈ d2, c.isDigit = true) ∧ np = sgn ++ d1 ++ '.' :: d2 := by
  rw [strtodAll] at h
  by_cases hneg : np.head? = some '-'
  · rw [if_pos hneg] at h
    have hnp : np = '-' :: np.tail := by
      cases np with
      | nil => simp at hneg
      | cons c t =>
        simp only [List.head?_cons, Option.some_inj] at hneg
        rw [hneg]
        rfl
    have hdot2 : '.' ∈ np.tail := by
      rw [hnp] at hdot
      rcases List.mem_cons.mp hdot with hd | hd
      · exact absurd hd (by decide)
      · exact hd
    obtain ⟨d1, d2, h1, h2, h3⟩ := strtod_body_structure h hdot2
    exact ⟨['-'], d1, d2, Or.inr rfl, h1, h2, by rw [hnp, h3]; rfl⟩
  · rw [if_neg hneg] at h
    obtain ⟨d1, d2, h1, h2, h3⟩ := strtod_body_structure h hdot
    exact ⟨[], d1, d2, Or.inl rfl, h1, h2, by rw [h3]; rfl⟩


lemma adjust_fixpoint {y : List Char} {sep : Char} (hsep : sep ≠ '.')
    (hdot2 : '.' ∉ y.takeWhile isNumChar) :
    adjustDecimalSeparator y sep = y := by
  unfold adjustDecimalSeparator
  rw [if_neg hsep]
  by_cases hemp : ((y.takeWhile isNumChar).isEmpty = true)
  · rw [if_pos hemp]
  · rw [if_neg hemp]
    by_cases hstr : (strtodAll (y.takeWhile isNumChar) = true)
    · rw [if_pos hstr, replaceFirstDot_no_dot sep hdot2,
        List.takeWhile_append_dropWhile]
    · rw [if_neg hstr]

/-- C8: when the numeric prefix over `{0-9, '.', '-', ','}` is non-empty
and parses fully as a number, the first `.` of the prefix — if the prefix
contains one — is replaced by the separator and the suffix is re-appended
unchanged (first clause); when the valid prefix contains no `.`, the prefix
is kept as is and the suffix is still appended unchanged (second clause), so
together every input the claim quantifies over is covered.  The two concrete
behaviours named by the claim hold as well. -/
theorem adjust_decimal_rewrite :
    (∀ (input : List Char) (sep : Char) (pre post : List Char), sep ≠ '.' →
      input.takeWhile isNumChar = pre ++ '.' :: post → '.' ∉ pre →
      strtodAll (input.takeWhile isNumChar) = true →
      adjustDecimalSeparator input sep =
        (pre ++ sep :: post) ++ input.dropWhile isNumChar) ∧
    (∀ (input : List Char) (sep : Char), sep ≠ '.' →
      input.takeWhile isNumChar ≠ [] →
      '.' ∉ input.takeWhile isNumChar →
      strtodAll (input.takeWhile isNumChar) = true →
      adjustDecimalSeparator input sep =
        input.takeWhile isNumChar ++ input.dropWhile isNumChar) ∧
    adjustDecimalSeparator "21.5 °C".data ',' = "21,5 °C".data ∧
    adjustDecimalSeparator "N/A".data ',' = "N/A".data := by
  refine ⟨?_, ?_, by decide, by decide⟩
  · intro input sep pre post hsep htake hpre hstr
    unfold adjustDecimalSeparator
    rw [if_neg hsep,
      if_neg (by rw [htake]; simp),
      if_pos hstr, htake, replaceFirstDot_dot pre post sep hpre]
  · intro input sep hsep hne hdot hstr
    unfold adjustDecimalSeparator
    rw [if_neg hsep,
      if_neg (by simp [List.isEmpty_eq_true, hne]),
      if_pos hstr, replaceFirstDot_no_dot sep hdot]

/-- Witness for C8: both quantified clauses at concrete inputs with a unit
suffix — a prefix with a dot and a dot-free prefix. -/
theorem adjust_decimal_rewrite_w :
    adjustDecimalSeparator "1.5 kg".data ',' =
      (['1'] ++ ',' :: ['5']) ++ " kg".data ∧
    adjustDecimalSeparator "42 kg".data ',' = "42".data ++ " kg".data :=
  ⟨adjust_decimal_rewrite.1 "1.5 kg".data ',' ['1'] ['5'] (by decide)
    (by decide) (by decide) (by decide),
  adjust_decimal_rewrite.2.1 "42 kg".data ',' (by decide) (by decide)
    (by decide) (by decide)⟩

/-- C9: `adjustDecimalSeparator` is idempotent — rewriting an already
rewritten string changes nothing, for every input and separator. -/
theorem adjust_decimal_idempotent :
    ∀ (x : List Char) (sep : Char),
      adjustDecimalSeparator (adjustDecimalSeparator x sep) sep =
        adjustDecimalSeparator x sep := by
  intro x sep
  by_cases hsep : sep = '.'
  · subst hsep
    simp [adjustDecimalSeparator]
  by_cases hemp : ((x.takeWhile isNumChar).isEmpty = true)
  · have h1 : adjustDecimalSeparator x sep = x := by
      unfold adjustDecimalSeparator
      rw [if_neg hsep, if_pos hemp]
    rw [h1]
    exact h1
  by_cases hstr : (strtodAll (x.takeWhile isNumChar) = true)
  case neg =>
    have h1 : adjustDecimalSeparator x sep = x := by
      unfold adjustDecimalSeparator
      rw [if_neg hsep, if_neg hemp, if_neg hstr]
    rw [h1]
    exact h1
  case pos =>
  by_cases hdot : '.' ∈ x.takeWhile isNumChar
  case neg =>
    have h1 : adjustDecimalSeparator x sep = x := adjust_fixpoint hsep hdot
    rw [h1]
    exact h1
  case pos =>
  obtain ⟨sgn, d1, d2, hsgn, hd1, hd2, hnp⟩ := strtodAll_dot hstr hdot
  have hpre_dot : '.' ∉ sgn ++ d1 := by
    intro hm
    rcases List.mem_append.mp hm with hm1 | hm2
    · rcases hsgn with rfl | rfl
      · simp at hm1
      · exact absurd (List.mem_singleton.mp hm1) (by decide)
    · exact absurd (hd1 '.' hm2) (by decide)
  have hpre_num : ∀ c ∈ sgn ++ d1, isNumChar c = true := by
    intro c hc
    rcases List.mem_append.mp hc with hc1 | hc2
    · rcases hsgn with rfl | rfl
      · simp at hc1
      · rw [List.mem_singleton.mp hc1]
        decide
    · simp [isNumChar, hd1 c hc2]
  have hd2_num : ∀ c ∈ d2, isNumChar c = true := by
    intro c hc
    simp [isNumChar, hd2 c hc]
  have h1 : adjustDecimalSeparator x sep =
      ((sgn ++ d1) ++ sep :: d2) ++ x.dropWhile isNumChar := by
    unfold adjustDecimalSeparator
    rw [if_neg hsep, if_neg hemp, if_pos hstr, hnp,
      show sgn ++ d1 ++ '.' :: d2 = (sgn ++ d1) ++ '.' :: d2 by rw [List.append_assoc],
      replaceFirstDot_dot _ _ _ hpre_dot]
  rw [h1]
  refine adjust_fixpoint hsep ?_
  intro hmem
  by_cases hsn : isNumChar sep = true
  · have htw : ((((sgn ++ d1) ++ sep :: d2) ++ x.dropWhile isNumChar).takeWhile
        isNumChar) = ((sgn ++ d1) ++ sep :: d2) ++
          (x.dropWhile isNumChar).takeWhile isNumChar := by
      refine List.takeWhile_append_of_pos ?_
      intro a ha
      rcases List.mem_append.mp ha with ha1 | ha2
      · exact hpre_num a ha1
      · rcases List.mem_cons.mp ha2 with rfl | ha3
        · exact hsn
        · exact hd2_num a ha3
    rw [htw, dropWhile_takeWhile_nil] at hmem
    simp only [List.append_nil] at hmem
    rcases List.mem_append.mp hmem with hm1 | hm2
    · exact hpre_dot hm1
    · rcases List.mem_cons.mp hm2 with heq | hm3
      · exact hsep heq.symm
      · exact absurd (hd2 '.' hm3) (by decide)
  · have htw : ((((sgn ++ d1) ++ sep :: d2) ++ x.dropWhile isNumChar).takeWhile
        isNumChar) = sgn ++ d1 := by
      rw [show ((sgn ++ d1) ++ sep :: d2) ++ x.dropWhile isNumChar =
          (sgn ++ d1) ++ (sep :: (d2 ++ x.dropWhile isNumChar)) by simp,
        List.takeWhile_append_of_pos hpre_num,
        List.takeWhile_cons_of_neg (by simp [hsn]), List.append_nil]
    rw [htw] at hmem
    exact hpre_dot hmem

end NSPanelEasy
